import Mathlib

/-!
bcache: bounded TTL cache and gossip merge engine.

Shallow embedding of `cache.go`.

* Go `int64` time stamps are `Int` (they are only compared, never added).
* `time.Now().Unix()` is the explicit argument `now`.
* A Go `interface{}` held by the LRU is the sum type `Iface`: the dynamic type
  is either the struct `value` or a plain `string`.
* A failed type assertion (a run-time panic) is the result `none`.
* `msg.Entries` (a Go map from string to `entry`) is an association list; the
  order of the list is the order in which `range` visits the map.
* The mutex is not modelled: every operation is one atomic step.
-/

set_option linter.dupNamespace false

namespace bcache

/-- The struct `value` of cache.go: a cache value with its expiry time stamp. -/
structure value where
  value : String
  expired : Int
deriving DecidableEq, Repr

/-- Dynamic content of a Go `interface{}`: the LRU stores items of this kind and
`mergeChange` compares one of them against a `string`. -/
inductive Iface where
  | ofValue (v : value)
  | ofString (s : String)
deriving DecidableEq, Repr

/-- Modelled from the spec: the element type of `msg.Entries`; its declaration is
not in cache.go, which reads the fields `Key`, `Val` (passed to `Set` as a
`string`) and `Expired` (passed as an `int64`). -/
structure entry where
  Key : String
  Val : String
  Expired : Int
deriving DecidableEq, Repr

/-- Modelled from the spec: the gossip batch `message`; its declaration is not in
cache.go. `Entries` is the Go map from key to `entry`, listed in iteration
order; `PeerID` is the identity stamped on it. -/
structure message where
  PeerID : Nat
  Entries : List (String × entry)
deriving DecidableEq, Repr

/-- Modelled from the spec: `newMessageFromEntries`, missing from cache.go: a batch
holding the given entries, stamped with the given peer identity. -/
def newMessageFromEntries (peerID : Nat) (entries : List (String × entry)) : message :=
  { PeerID := peerID, Entries := entries }

/-- The Go builtin `delete(m, key)` on the association list of a map. -/
def mapDelete (m : List (String × entry)) (key : String) : List (String × entry) :=
  m.filter (fun p => decide (p.1 ≠ key))

namespace lru

/-- Modelled from the spec: the bounded-map capability `lru.Cache` (the external
package golang-lru, not part of cache.go): a capacity and the stored items, most
recently used first. -/
structure Cache where
  size : Int
  items : List (String × Iface)
deriving DecidableEq, Repr

/-- Modelled from the spec: `lru.New`: fails unless the capacity is positive. -/
def New (size : Int) : Except String Cache :=
  if size ≤ 0 then .error "Must provide a positive size"
  else .ok { size := size, items := [] }

/-- Raw map lookup of the bounded map (no recency update). -/
def find : List (String × Iface) → String → Option Iface
  | [], _ => none
  | (k, v) :: rest, key => if k = key then some v else find rest key

/-- Removal of the item stored under a key from the recency list. -/
def erase (items : List (String × Iface)) (key : String) : List (String × Iface) :=
  items.filter (fun p => decide (p.1 ≠ key))

/-- Modelled from the spec: `Len` of the bounded map. -/
def Cache.Len (c : Cache) : Nat := c.items.length

/-- Modelled from the spec: `Add` of the bounded map: an existing key is updated
and moved to the front; a new key is pushed to the front and, when the length
then exceeds the capacity, the oldest item is evicted. Returns the new map and
whether an eviction took place. -/
def Cache.Add (c : Cache) (key : String) (v : Iface) : Cache × Bool :=
  match find c.items key with
  | some _ => ({ c with items := (key, v) :: erase c.items key }, false)
  | none =>
    let items := (key, v) :: c.items
    if (items.length : Int) > c.size then ({ c with items := items.dropLast }, true)
    else ({ c with items := items }, false)

/-- Modelled from the spec: `Get` of the bounded map: point lookup that moves a
found item to the front. -/
def Cache.Get (c : Cache) (key : String) : Cache × Option Iface :=
  match find c.items key with
  | some v => ({ c with items := (key, v) :: erase c.items key }, some v)
  | none => (c, none)

/-- Modelled from the spec: `Remove` of the bounded map: explicit removal. -/
def Cache.Remove (c : Cache) (key : String) : Cache :=
  { c with items := erase c.items key }

end lru

/-- The struct `cache` of cache.go (the mutex is left out). -/
structure cache where
  peerID : Nat
  cc : lru.Cache
deriving DecidableEq, Repr

/-- `newCache`: fails exactly when `lru.New` fails; `peerID` keeps its zero value. -/
def newCache (maxKeys : Int) : Except String cache :=
  match lru.New maxKeys with
  | .error err => .error err
  | .ok cc => .ok { peerID := 0, cc := cc }

/-- `Set` sets the value of a cache. -/
def cache.Set (c : cache) (key val : String) (expiredTimestamp : Int) : cache :=
  { c with cc := (c.cc.Add key (.ofValue { value := val, expired := expiredTimestamp })).1 }

/-- The unexported `get`: the result is `none` when the type assertion
`cacheVal.(value)` panics. -/
def cache.get (c : cache) (key : String) : Option (cache × String × Int × Bool) :=
  match c.cc.Get key with
  | (cc, none) => some ({ c with cc := cc }, "", 0, false)
  | (cc, some (.ofValue val)) => some ({ c with cc := cc }, val.value, val.expired, true)
  | (_, some (.ofString _)) => none

/-- `Get` gets the cache value of the given key at the current time `now`. -/
def cache.Get (c : cache) (key : String) (now : Int) : Option (cache × String × Bool) :=
  match c.get key with
  | none => none
  | some (c1, val, expired, ok) =>
    if !ok then some (c1, "", false)
    else if expired > 0 ∧ now > expired then
      some ({ c1 with cc := c1.cc.Remove key }, "", false)
    else some (c1, val, true)

/-- The first loop of `mergeChange`, over the entries in iteration order, threading
the store, `existingKeys` and `changedKey`. -/
def mergeLoop : List (String × entry) → cache → List String → Nat →
    cache × List String × Nat
  | [], c, existingKeys, changedKey => (c, existingKeys, changedKey)
  | (_, e) :: rest, c, existingKeys, changedKey =>
    match c.cc.Get e.Key with
    | (cc, some val) =>
      if val = Iface.ofString e.Val then
        mergeLoop rest { c with cc := cc } (existingKeys ++ [e.Key]) changedKey
      else
        mergeLoop rest (cache.Set { c with cc := cc } e.Key e.Val e.Expired)
          existingKeys (changedKey + 1)
    | (cc, none) =>
      mergeLoop rest (cache.Set { c with cc := cc } e.Key e.Val e.Expired)
        existingKeys (changedKey + 1)

/-- The second loop of `mergeChange`: delete every existing key from the map. -/
def deleteKeys (entries : List (String × entry)) (existingKeys : List String) :
    List (String × entry) :=
  existingKeys.foldl mapDelete entries

/-- `mergeChange`: the store afterwards, the delta (`none` is Go's nil) and
`changedKey`. -/
def cache.mergeChange (c : cache) (msg : message) : cache × Option message × Nat :=
  if msg.Entries.length = 0 then (c, none, 0)
  else
    match mergeLoop msg.Entries c [] 0 with
    | (c1, existingKeys, changedKey) =>
      (c1, some (newMessageFromEntries c.peerID (deleteKeys msg.Entries existingKeys)),
        changedKey)

/-- `mergeDelta`: the delta of `mergeChange`, whatever the count. -/
def cache.mergeDelta (c : cache) (msg : message) : cache × Option message :=
  match c.mergeChange msg with
  | (c1, delta, _) => (c1, delta)

/-- `mergeNew`: the delta of `mergeChange`, or nil when nothing changed. -/
def cache.mergeNew (c : cache) (msg : message) : cache × Option message :=
  match c.mergeChange msg with
  | (c1, delta, changedKey) => if changedKey = 0 then (c1, none) else (c1, delta)

/-- One call on the store, as issued by the application or the gossip layer. -/
inductive Op where
  | set (key val : String) (expiredTimestamp : Int)
  | get (key : String) (now : Int)
  | mergeDelta (msg : message)
  | mergeNew (msg : message)
deriving DecidableEq, Repr

/-- The store after one call; `none` when the call panics. -/
def step (c : cache) : Op → Option cache
  | .set key val e => some (c.Set key val e)
  | .get key now => (c.Get key now).map (fun r => r.1)
  | .mergeDelta msg => some (c.mergeDelta msg).1
  | .mergeNew msg => some (c.mergeNew msg).1

/-- The store after a sequence of calls; `none` when one of them panics. -/
def run (c : cache) : List Op → Option cache
  | [] => some c
  | op :: ops => (step c op).bind (fun c1 => run c1 ops)

/-- Every stored item is a `value` record. -/
def AllValues (c : cache) : Prop :=
  ∀ p ∈ c.cc.items, ∃ r, p.2 = Iface.ofValue r

/-- The state invariant of a store of capacity `maxKeys`: the capacity is
`maxKeys`, at most `maxKeys` items are stored, and each is a `value` record. -/
def Inv (maxKeys : Int) (c : cache) : Prop :=
  c.cc.size = maxKeys ∧ (c.cc.Len : Int) ≤ maxKeys ∧ AllValues c

/-! ## The bounded map: lookup, erase, and the front of the recency list -/

theorem find_erase_self (items : List (String × Iface)) (key : String) :
    lru.find (lru.erase items key) key = none := by
  induction items with
  | nil => rfl
  | cons p rest ih =>
    obtain ⟨k, v⟩ := p
    by_cases hk : k = key
    · simpa [lru.erase, hk] using ih
    · simpa [lru.erase, lru.find, hk] using ih

theorem find_erase_of_ne (items : List (String × Iface)) {key other : String}
    (hne : other ≠ key) : lru.find (lru.erase items key) other = lru.find items other := by
  induction items with
  | nil => rfl
  | cons p rest ih =>
    obtain ⟨k, v⟩ := p
    by_cases hk : k = key
    · subst hk
      have hko : k ≠ other := fun h => hne h.symm
      simpa [lru.erase, lru.find, hko] using ih
    · by_cases hko : k = other
      · subst hko
        simp [lru.erase, lru.find, hk]
      · simpa [lru.erase, lru.find, hk, hko] using ih

theorem erase_cons_self (items : List (String × Iface)) (key : String) (v : Iface) :
    lru.erase ((key, v) :: items) key = lru.erase items key := by
  simp [lru.erase]

theorem erase_erase_self (items : List (String × Iface)) (key : String) :
    lru.erase (lru.erase items key) key = lru.erase items key := by
  simp [lru.erase]

theorem find_cons_self (items : List (String × Iface)) (key : String) (v : Iface) :
    lru.find ((key, v) :: items) key = some v := by
  simp [lru.find]

theorem find_cons_of_ne (items : List (String × Iface)) {key other : String} (v : Iface)
    (hne : key ≠ other) : lru.find ((key, v) :: items) other = lru.find items other := by
  simp [lru.find, hne]

/-- `Get` on the bounded map returns exactly the raw lookup. -/
theorem lruGet_snd (c : lru.Cache) (key : String) :
    (c.Get key).2 = lru.find c.items key := by
  unfold lru.Cache.Get
  cases h : lru.find c.items key <;> simp

/-- `Get` on the bounded map changes no lookup. -/
theorem lruGet_find (c : lru.Cache) (key other : String) :
    lru.find (c.Get key).1.items other = lru.find c.items other := by
  unfold lru.Cache.Get
  cases h : lru.find c.items key with
  | none => simp
  | some v =>
    by_cases hk : key = other
    · subst hk; simp [lru.find, h]
    · simp only [find_cons_of_ne _ _ hk, find_erase_of_ne _ (Ne.symm hk)]

/-! ## The two propagation modes -/

/-- C3 (flood damping): `mergeNew` returns nil exactly when the `changedKey` that
`mergeChange` computes is 0; when it is positive, `mergeChange` has a delta and
`mergeNew` returns exactly that delta; the store is the one `mergeChange` leaves. -/
theorem mergeNew_nil_iff_changedKey_zero (c : cache) (msg : message) :
    ((c.mergeNew msg).2 = none ↔ (c.mergeChange msg).2.2 = 0) ∧
    (0 < (c.mergeChange msg).2.2 →
      ∃ m, (c.mergeChange msg).2.1 = some m ∧ (c.mergeNew msg).2 = some m) ∧
    (c.mergeNew msg).1 = (c.mergeChange msg).1 := by
  unfold cache.mergeNew cache.mergeChange
  by_cases hlen : msg.Entries.length = 0
  · simp [hlen]
  · simp only [hlen, if_false]
    by_cases hn : (mergeLoop msg.Entries c [] 0).2.2 = 0
    · simp [hn]
    · simp [hn]

/-- C4, the empty batch: `mergeDelta` on a batch without entries returns nil, not
an empty batch. -/
theorem mergeDelta_empty_batch_is_nil :
    newCache 1 = .ok ⟨0, ⟨1, []⟩⟩ ∧
    (cache.mergeDelta ⟨0, ⟨1, []⟩⟩ ⟨7, []⟩).2 = none ∧
    (cache.mergeChange ⟨0, ⟨1, []⟩⟩ ⟨7, []⟩).2.2 = 0 :=
  ⟨rfl, by decide, by decide⟩

/-- C4 as amended: `mergeDelta` returns nil exactly for a batch without entries;
for every other batch it returns the delta of `mergeChange`, which is a batch,
whatever `changedKey` is. -/
theorem mergeDelta_nil_iff_empty (c : cache) (msg : message) :
    ((c.mergeDelta msg).2 = none ↔ msg.Entries = []) ∧
    (msg.Entries ≠ [] →
      ∃ m, (c.mergeDelta msg).2 = some m ∧ (c.mergeChange msg).2.1 = some m) := by
  unfold cache.mergeDelta cache.mergeChange
  by_cases hlen : msg.Entries = []
  · simp [hlen]
  · have hlen2 : ¬ msg.Entries.length = 0 := by simpa using hlen
    simp [hlen, hlen2]

/-! ## Reads -/

/-- C8 (lazy expiration): when `key` holds `(v, t)` with `t > 0`, `Get` at a time
`now > t` returns `("", false)` and leaves the recency list with `key` erased:
`key` is no longer stored and every other key holds what it held. -/
theorem Get_expired_removes (c : cache) (key v : String) (t now : Int)
    (hfind : lru.find c.cc.items key = some (Iface.ofValue ⟨v, t⟩))
    (ht : 0 < t) (hnow : t < now) :
    ∃ c1, c.Get key now = some (c1, "", false) ∧
      c1.cc.items = lru.erase c.cc.items key ∧
      c1.cc.size = c.cc.size ∧ c1.peerID = c.peerID ∧
      lru.find c1.cc.items key = none ∧
      ∀ other, other ≠ key → lru.find c1.cc.items other = lru.find c.cc.items other := by
  refine ⟨{ c with cc := { c.cc with items := lru.erase c.cc.items key } }, ?_, rfl, rfl, rfl,
    find_erase_self _ _, fun other hne => find_erase_of_ne _ hne⟩
  have hcond : t > 0 ∧ now > t := ⟨ht, hnow⟩
  simp [cache.Get, cache.get, lru.Cache.Get, hfind, hcond, lru.Cache.Remove,
    erase_cons_self, erase_erase_self]

theorem Get_expired_removes_witness :
    ∃ c1, cache.Get ⟨0, ⟨2, [("a", Iface.ofValue ⟨"x", 0⟩), ("k", Iface.ofValue ⟨"v", 5⟩)]⟩⟩
        "k" 6 = some (c1, "", false) ∧
      c1.cc.items = lru.erase [("a", Iface.ofValue ⟨"x", 0⟩), ("k", Iface.ofValue ⟨"v", 5⟩)] "k" ∧
      c1.cc.size = 2 ∧ c1.peerID = 0 ∧
      lru.find c1.cc.items "k" = none ∧
      ∀ other, other ≠ "k" → lru.find c1.cc.items other =
        lru.find [("a", Iface.ofValue ⟨"x", 0⟩), ("k", Iface.ofValue ⟨"v", 5⟩)] other :=
  Get_expired_removes ⟨0, ⟨2, [("a", Iface.ofValue ⟨"x", 0⟩), ("k", Iface.ofValue ⟨"v", 5⟩)]⟩⟩
    "k" "v" 5 6 (by decide) (by decide) (by decide)

/-- A read of a record that is not expired returns its value and only moves it to
the front. -/
theorem Get_of_live (c : cache) (key v : String) (t now : Int)
    (hfind : lru.find c.cc.items key = some (Iface.ofValue ⟨v, t⟩))
    (hlive : t ≤ 0 ∨ now ≤ t) :
    c.Get key now = some ({ c with cc := (c.cc.Get key).1 }, v, true) := by
  have hcond : ¬ (t > 0 ∧ now > t) := by omega
  simp [cache.Get, cache.get, lru.Cache.Get, hfind, hcond]

/-- C9 (live read): when `key` holds `(v, t)` and `t ≤ 0` or `now ≤ t`, `Get` at
time `now` returns `(v, true)`; afterwards `key` still holds `(v, t)` and every
key holds what it held. -/
theorem Get_live_returns (c : cache) (key v : String) (t now : Int)
    (hfind : lru.find c.cc.items key = some (Iface.ofValue ⟨v, t⟩))
    (hlive : t ≤ 0 ∨ now ≤ t) :
    ∃ c1, c.Get key now = some (c1, v, true) ∧
      lru.find c1.cc.items key = some (Iface.ofValue ⟨v, t⟩) ∧
      ∀ other, lru.find c1.cc.items other = lru.find c.cc.items other := by
  refine ⟨{ c with cc := (c.cc.Get key).1 }, Get_of_live c key v t now hfind hlive, ?_, ?_⟩
  · simp [lruGet_find, hfind]
  · intro other
    simp [lruGet_find]

theorem Get_live_returns_witness :
    ∃ c1, cache.Get ⟨0, ⟨2, [("a", Iface.ofValue ⟨"x", 0⟩), ("k", Iface.ofValue ⟨"v", -3⟩)]⟩⟩
        "k" 6 = some (c1, "v", true) ∧
      lru.find c1.cc.items "k" = some (Iface.ofValue ⟨"v", -3⟩) ∧
      ∀ other, lru.find c1.cc.items other =
        lru.find [("a", Iface.ofValue ⟨"x", 0⟩), ("k", Iface.ofValue ⟨"v", -3⟩)] other :=
  Get_live_returns ⟨0, ⟨2, [("a", Iface.ofValue ⟨"x", 0⟩), ("k", Iface.ofValue ⟨"v", -3⟩)]⟩⟩
    "k" "v" (-3) 6 (by decide) (by decide)

/-- `Add` on a bounded map of positive capacity leaves the added item stored. -/
theorem find_Add_self (c : lru.Cache) (key : String) (x : Iface) (hsize : 0 < c.size) :
    lru.find (c.Add key x).1.items key = some x := by
  unfold lru.Cache.Add
  cases hf : lru.find c.items key with
  | some _ => simp [lru.find]
  | none =>
    simp only
    split
    · rename_i hlen
      cases hitems : c.items with
      | nil => simp [hitems] at hlen; omega
      | cons p rest => simp [List.dropLast, lru.find]
    · simp [lru.find]

/-- C10 (Set then Get): on a store of positive capacity, whatever it holds, `Set`
returns a store (it has no failure path) on which `Get key` at a time `now`
with `e ≤ 0` or `now ≤ e` returns `(v, true)`. -/
theorem Set_then_Get (c : cache) (key v : String) (e now : Int)
    (hsize : 0 < c.cc.size) (hlive : e ≤ 0 ∨ now ≤ e) :
    ∃ c1, (c.Set key v e).Get key now = some (c1, v, true) := by
  have hfind : lru.find (c.Set key v e).cc.items key = some (Iface.ofValue ⟨v, e⟩) :=
    find_Add_self c.cc key _ hsize
  exact ⟨_, Get_of_live (c.Set key v e) key v e now hfind hlive⟩

theorem Set_then_Get_witness :
    (0 : Int) < 1 ∧ ((7 : Int) ≤ 0 ∨ (3 : Int) ≤ 7) ∧
    ∃ c1, (cache.Set ⟨0, ⟨1, [("a", Iface.ofValue ⟨"x", 0⟩)]⟩⟩ "k" "v" 7).Get "k" 3
      = some (c1, "v", true) :=
  ⟨by decide, by decide,
    Set_then_Get ⟨0, ⟨1, [("a", Iface.ofValue ⟨"x", 0⟩)]⟩⟩ "k" "v" 7 3 (by decide) (by decide)⟩

/-! ## The value comparison of `mergeChange` on concrete inputs -/

/-- C1, evaluated: on the empty store of capacity 2, the batch `{k: (v, 0)}` is
merged with `changedKey = 1`; merging the same batch again into the resulting
store again gives `changedKey = 1` and a delta that still holds `k`. -/
theorem mergeChange_twice_changes_again :
    newCache 2 = .ok ⟨0, ⟨2, []⟩⟩ ∧
    cache.mergeChange ⟨0, ⟨2, []⟩⟩ ⟨7, [("k", ⟨"k", "v", 0⟩)]⟩ =
      (⟨0, ⟨2, [("k", Iface.ofValue ⟨"v", 0⟩)]⟩⟩, some ⟨0, [("k", ⟨"k", "v", 0⟩)]⟩, 1) ∧
    cache.mergeChange ⟨0, ⟨2, [("k", Iface.ofValue ⟨"v", 0⟩)]⟩⟩ ⟨7, [("k", ⟨"k", "v", 0⟩)]⟩ =
      (⟨0, ⟨2, [("k", Iface.ofValue ⟨"v", 0⟩)]⟩⟩, some ⟨0, [("k", ⟨"k", "v", 0⟩)]⟩, 1) :=
  ⟨rfl, by decide, by decide⟩

/-- C2, evaluated: the store of capacity 2 after `Set("k", "v", 0)` holds `k` with
value `v`; merging `{k: (v, 5)}` gives `changedKey = 1`, a delta that holds `k`,
and a store in which the expiry of `k` is now 5. -/
theorem mergeChange_equal_value_counts :
    cache.Set ⟨0, ⟨2, []⟩⟩ "k" "v" 0 = ⟨0, ⟨2, [("k", Iface.ofValue ⟨"v", 0⟩)]⟩⟩ ∧
    cache.mergeChange ⟨0, ⟨2, [("k", Iface.ofValue ⟨"v", 0⟩)]⟩⟩ ⟨7, [("k", ⟨"k", "v", 5⟩)]⟩ =
      (⟨0, ⟨2, [("k", Iface.ofValue ⟨"v", 5⟩)]⟩⟩, some ⟨0, [("k", ⟨"k", "v", 5⟩)]⟩, 1) :=
  ⟨by decide, by decide⟩

/-! ## Invariants of the store -/

theorem find_mem {items : List (String × Iface)} {key : String} {v : Iface}
    (h : lru.find items key = some v) : (key, v) ∈ items := by
  induction items with
  | nil => simp [lru.find] at h
  | cons p rest ih =>
    obtain ⟨k, x⟩ := p
    by_cases hk : k = key
    · subst hk
      simp [lru.find] at h
      simp [h]
    · simp [lru.find, hk] at h
      exact List.mem_cons_of_mem _ (ih h)

theorem erase_length_le (items : List (String × Iface)) (key : String) :
    (lru.erase items key).length ≤ items.length :=
  List.length_filter_le _ _

theorem erase_length_lt {items : List (String × Iface)} {key : String} {v : Iface}
    (h : lru.find items key = some v) : (lru.erase items key).length < items.length := by
  induction items with
  | nil => simp [lru.find] at h
  | cons p rest ih =>
    obtain ⟨k, x⟩ := p
    by_cases hk : k = key
    · subst hk
      have := erase_length_le rest k
      simp only [erase_cons_self, List.length_cons]
      omega
    · simp [lru.find, hk] at h
      have := ih h
      simpa [lru.erase, hk] using this

theorem mem_erase {items : List (String × Iface)} {key : String} {p : String × Iface}
    (h : p ∈ lru.erase items key) : p ∈ items :=
  (List.mem_filter.mp h).1

theorem lruAdd_size (c : lru.Cache) (key : String) (x : Iface) :
    (c.Add key x).1.size = c.size := by
  unfold lru.Cache.Add
  cases lru.find c.items key with
  | some _ => rfl
  | none => simp only; split <;> rfl

theorem lruGet_size (c : lru.Cache) (key : String) : (c.Get key).1.size = c.size := by
  unfold lru.Cache.Get
  cases lru.find c.items key <;> rfl

/-- `Add` keeps the number of items within the capacity. -/
theorem lruAdd_length (c : lru.Cache) (key : String) (x : Iface)
    (h : (c.items.length : Int) ≤ c.size) :
    ((c.Add key x).1.items.length : Int) ≤ c.size := by
  unfold lru.Cache.Add
  cases hf : lru.find c.items key with
  | some v =>
    have := erase_length_lt hf
    simp only [List.length_cons]
    omega
  | none =>
    simp only
    split
    · simp only [List.length_dropLast, List.length_cons]
      omega
    · rename_i hlen
      simp only [List.length_cons] at hlen ⊢
      omega

/-- `Get` on the bounded map keeps the number of items. -/
theorem lruGet_length (c : lru.Cache) (key : String) :
    (c.Get key).1.items.length ≤ c.items.length := by
  unfold lru.Cache.Get
  cases hf : lru.find c.items key with
  | some v =>
    have := erase_length_lt hf
    simp only [List.length_cons]
    omega
  | none => simp

theorem lruAdd_mem (c : lru.Cache) (key : String) (x : Iface) {p : String × Iface}
    (h : p ∈ (c.Add key x).1.items) : p = (key, x) ∨ p ∈ c.items := by
  unfold lru.Cache.Add at h
  cases hf : lru.find c.items key with
  | some v =>
    simp only [hf, List.mem_cons] at h
    exact h.imp id mem_erase
  | none =>
    simp only [hf] at h
    split at h
    · exact List.mem_cons.mp (List.dropLast_subset _ h)
    · exact List.mem_cons.mp h

theorem lruGet_mem (c : lru.Cache) (key : String) {p : String × Iface}
    (h : p ∈ (c.Get key).1.items) : p ∈ c.items := by
  unfold lru.Cache.Get at h
  cases hf : lru.find c.items key with
  | some v =>
    simp only [hf, List.mem_cons] at h
    rcases h with h | h
    · exact h ▸ find_mem hf
    · exact mem_erase h
  | none => simpa [hf] using h

/-- One round of the first loop of `mergeChange`, in terms of the raw lookup. -/
theorem mergeLoop_cons (mk : String) (e : entry) (rest : List (String × entry)) (c : cache)
    (existingKeys : List String) (changedKey : Nat) :
    mergeLoop ((mk, e) :: rest) c existingKeys changedKey =
      if lru.find c.cc.items e.Key = some (Iface.ofString e.Val) then
        mergeLoop rest { c with cc := (c.cc.Get e.Key).1 } (existingKeys ++ [e.Key]) changedKey
      else
        mergeLoop rest (cache.Set { c with cc := (c.cc.Get e.Key).1 } e.Key e.Val e.Expired)
          existingKeys (changedKey + 1) := by
  have hsnd := lruGet_snd c.cc e.Key
  rw [mergeLoop]
  cases hg : c.cc.Get e.Key with
  | mk cc r =>
    rw [hg] at hsnd
    simp only at hsnd
    rw [← hsnd]
    cases r with
    | none => simp
    | some val =>
      by_cases hv : val = Iface.ofString e.Val
      · simp [hv]
      · simp [hv]

theorem Inv_Set {maxKeys : Int} {c : cache} (h : Inv maxKeys c) (key val : String) (e : Int) :
    Inv maxKeys (c.Set key val e) := by
  obtain ⟨hsize, hlen, hall⟩ := h
  refine ⟨?_, ?_, ?_⟩
  · simpa [cache.Set, lruAdd_size] using hsize
  · have := lruAdd_length c.cc key (Iface.ofValue ⟨val, e⟩) (by simpa [lru.Cache.Len, hsize] using hlen)
    simpa [cache.Set, lru.Cache.Len, hsize] using this
  · intro p hp
    rcases lruAdd_mem c.cc key _ hp with h1 | h1
    · exact ⟨_, by rw [h1]⟩
    · exact hall p h1

theorem Inv_lruGet {maxKeys : Int} {c : cache} (h : Inv maxKeys c) (key : String) :
    Inv maxKeys { c with cc := (c.cc.Get key).1 } := by
  obtain ⟨hsize, hlen, hall⟩ := h
  refine ⟨?_, ?_, ?_⟩
  · simpa [lruGet_size] using hsize
  · have := lruGet_length c.cc key
    simp only [lru.Cache.Len] at hlen ⊢
    omega
  · intro p hp
    exact hall p (lruGet_mem c.cc key hp)

theorem Inv_Remove {maxKeys : Int} {c : cache} (h : Inv maxKeys c) (key : String) :
    Inv maxKeys { c with cc := c.cc.Remove key } := by
  obtain ⟨hsize, hlen, hall⟩ := h
  refine ⟨hsize, ?_, ?_⟩
  · have := erase_length_le c.cc.items key
    simp only [lru.Cache.Len, lru.Cache.Remove] at hlen ⊢
    omega
  · intro p hp
    exact hall p (mem_erase hp)

/-- On a store whose items are all `value` records the type assertion of `get`
succeeds. -/
theorem get_total {maxKeys : Int} {c : cache} (h : Inv maxKeys c) (key : String) :
    ∃ v t ok, c.get key = some ({ c with cc := (c.cc.Get key).1 }, v, t, ok) := by
  have hsnd := lruGet_snd c.cc key
  unfold cache.get
  cases hg : c.cc.Get key with
  | mk cc r =>
    rw [hg] at hsnd
    simp only at hsnd
    cases r with
    | none => exact ⟨_, _, _, rfl⟩
    | some x =>
      obtain ⟨r, hr⟩ := h.2.2 _ (find_mem hsnd.symm)
      simp only at hr
      subst hr
      exact ⟨_, _, _, rfl⟩

/-- `Get` returns on every store that satisfies the invariant, and keeps it. -/
theorem Get_total {maxKeys : Int} {c : cache} (h : Inv maxKeys c) (key : String) (now : Int) :
    ∃ c1 v ok, c.Get key now = some (c1, v, ok) ∧ Inv maxKeys c1 := by
  obtain ⟨v, t, ok, hget⟩ := get_total h key
  have hinv := Inv_lruGet h key
  unfold cache.Get
  rw [hget]
  simp only
  split
  · exact ⟨_, _, _, rfl, hinv⟩
  · split
    · exact ⟨_, _, _, rfl, Inv_Remove hinv key⟩
    · exact ⟨_, _, _, rfl, hinv⟩

theorem Inv_mergeLoop {maxKeys : Int} (es : List (String × entry)) :
    ∀ (c : cache) (existingKeys : List String) (changedKey : Nat), Inv maxKeys c →
      Inv maxKeys (mergeLoop es c existingKeys changedKey).1 := by
  induction es with
  | nil => intro c _ _ h; simpa [mergeLoop] using h
  | cons p rest ih =>
    obtain ⟨mk, e⟩ := p
    intro c ex n h
    rw [mergeLoop_cons]
    split
    · exact ih _ _ _ (Inv_lruGet h _)
    · exact ih _ _ _ (Inv_Set (Inv_lruGet h _) _ _ _)

theorem Inv_mergeChange {maxKeys : Int} {c : cache} (h : Inv maxKeys c) (msg : message) :
    Inv maxKeys (c.mergeChange msg).1 := by
  unfold cache.mergeChange
  split
  · exact h
  · exact Inv_mergeLoop msg.Entries c [] 0 h

theorem mergeDelta_fst (c : cache) (msg : message) :
    (c.mergeDelta msg).1 = (c.mergeChange msg).1 := rfl

theorem mergeNew_fst (c : cache) (msg : message) :
    (c.mergeNew msg).1 = (c.mergeChange msg).1 := by
  unfold cache.mergeNew
  by_cases hn : (c.mergeChange msg).2.2 = 0
  · simp [hn]
  · simp [hn]

/-- Every call returns on a store that satisfies the invariant, and keeps it. -/
theorem step_total {maxKeys : Int} {c : cache} (h : Inv maxKeys c) (op : Op) :
    ∃ c1, step c op = some c1 ∧ Inv maxKeys c1 := by
  cases op with
  | set key val e => exact ⟨_, rfl, Inv_Set h key val e⟩
  | get key now =>
    obtain ⟨c1, v, ok, hget, hinv⟩ := Get_total h key now
    exact ⟨c1, by simp [step, hget], hinv⟩
  | mergeDelta msg => exact ⟨_, rfl, by rw [mergeDelta_fst]; exact Inv_mergeChange h msg⟩
  | mergeNew msg => exact ⟨_, rfl, by rw [mergeNew_fst]; exact Inv_mergeChange h msg⟩

theorem run_total {maxKeys : Int} (ops : List Op) :
    ∀ c : cache, Inv maxKeys c → ∃ c1, run c ops = some c1 ∧ Inv maxKeys c1 := by
  induction ops with
  | nil => intro c h; exact ⟨c, rfl, h⟩
  | cons op ops ih =>
    intro c h
    obtain ⟨c1, hstep, hinv⟩ := step_total h op
    obtain ⟨c2, hrun, hinv2⟩ := ih c1 hinv
    exact ⟨c2, by simp [run, hstep, hrun], hinv2⟩

theorem newCache_ok {maxKeys : Int} (h : 0 < maxKeys) :
    newCache maxKeys = .ok ⟨0, ⟨maxKeys, []⟩⟩ ∧ Inv maxKeys ⟨0, ⟨maxKeys, []⟩⟩ := by
  have hn : ¬ maxKeys ≤ 0 := by omega
  refine ⟨by simp [newCache, lru.New, hn], rfl, ?_, ?_⟩
  · simp only [lru.Cache.Len, List.length_nil]
    omega
  · intro p hp
    simp at hp

/-- C7 (capacity invariant): for `maxKeys > 0`, `newCache maxKeys` returns a store,
every sequence of `Set`, `Get`, `mergeDelta` and `mergeNew` calls on it runs to
the end, and the store it leaves holds at most `maxKeys` entries. -/
theorem capacity_invariant (maxKeys : Int) (hpos : 0 < maxKeys) (ops : List Op) :
    ∃ c0 c1, newCache maxKeys = .ok c0 ∧ run c0 ops = some c1 ∧
      (c1.cc.Len : Int) ≤ maxKeys := by
  obtain ⟨hnew, hinv⟩ := newCache_ok hpos
  obtain ⟨c1, hrun, hinv1⟩ := run_total ops _ hinv
  exact ⟨_, c1, hnew, hrun, hinv1.2.1⟩

theorem capacity_invariant_witness :
    (0 : Int) < 1 ∧ ∃ c0 c1, newCache 1 = .ok c0 ∧
      run c0 [Op.set "a" "x" 0, Op.mergeNew ⟨7, [("b", ⟨"b", "y", 0⟩), ("c", ⟨"c", "z", 0⟩)]⟩,
        Op.get "c" 5, Op.mergeDelta ⟨7, [("d", ⟨"d", "w", 1⟩)]⟩] = some c1 ∧
      (c1.cc.Len : Int) ≤ 1 :=
  ⟨by decide, capacity_invariant 1 (by decide) _⟩

/-! ## Batches that bring only new values -/

theorem find_dropLast (items : List (String × Iface)) (key : String) :
    lru.find items.dropLast key = lru.find items key ∨ lru.find items.dropLast key = none := by
  induction items with
  | nil => left; rfl
  | cons p rest ih =>
    cases rest with
    | nil => right; rfl
    | cons q rest2 =>
      obtain ⟨k, v⟩ := p
      by_cases hk : k = key
      · left; simp [List.dropLast, lru.find, hk]
      · simpa [List.dropLast, lru.find, hk] using ih

/-- After `Add key x` a key holds what it held, or nothing, or `x`. -/
theorem find_Add_cases (c : lru.Cache) (key : String) (x : Iface) (other : String) :
    lru.find (c.Add key x).1.items other = lru.find c.items other ∨
    lru.find (c.Add key x).1.items other = none ∨
    lru.find (c.Add key x).1.items other = some x := by
  unfold lru.Cache.Add
  by_cases hk : key = other
  · subst hk
    cases hf : lru.find c.items key with
    | some v => right; right; simp [lru.find]
    | none =>
      simp only
      split
      · rcases find_dropLast ((key, x) :: c.items) key with h | h
        · right; right; rw [h]; simp [lru.find]
        · right; left; exact h
      · right; right; simp [lru.find]
  · cases hf : lru.find c.items key with
    | some v =>
      left
      simp only [find_cons_of_ne _ _ hk, find_erase_of_ne _ (Ne.symm hk)]
    | none =>
      simp only
      split
      · rcases find_dropLast ((key, x) :: c.items) other with h | h
        · left; rw [h]; exact find_cons_of_ne _ _ hk
        · right; left; exact h
      · left; exact find_cons_of_ne _ _ hk

/-- A key that does not hold the string `s` before one round of the merge loop
does not hold it after the round's `Get` and `Set`. -/
theorem find_Get_Set_ne_string (c : cache) (key val : String) (e : Int) (other s : String)
    (h : lru.find c.cc.items other ≠ some (Iface.ofString s)) :
    lru.find (cache.Set { c with cc := (c.cc.Get key).1 } key val e).cc.items other
      ≠ some (Iface.ofString s) := by
  have hcases := find_Add_cases (c.cc.Get key).1 key (Iface.ofValue ⟨val, e⟩) other
  rw [lruGet_find] at hcases
  simp only [cache.Set]
  rcases hcases with h1 | h1 | h1 <;> rw [h1]
  · exact h
  · simp
  · simp

/-- When no entry's key holds the entry's value string, the loop classifies no key
as existing and counts every entry. -/
theorem mergeLoop_all_new (es : List (String × entry)) :
    ∀ (c : cache) (existingKeys : List String) (changedKey : Nat),
      (∀ p ∈ es, lru.find c.cc.items p.2.Key ≠ some (Iface.ofString p.2.Val)) →
      (mergeLoop es c existingKeys changedKey).2 = (existingKeys, changedKey + es.length) := by
  induction es with
  | nil => intro c ex n _; rfl
  | cons p rest ih =>
    obtain ⟨mk, e⟩ := p
    intro c ex n h
    rw [mergeLoop_cons, if_neg (h (mk, e) (List.mem_cons_self _ _))]
    rw [ih _ _ _ (fun q hq => find_Get_Set_ne_string c e.Key e.Val e.Expired _ _
      (h q (List.mem_cons_of_mem _ hq)))]
    simp only [List.length_cons]
    congr 1
    omega

theorem mergeChange_all_new (c : cache) (msg : message) (hne : msg.Entries ≠ [])
    (h : ∀ p ∈ msg.Entries, lru.find c.cc.items p.2.Key ≠ some (Iface.ofString p.2.Val)) :
    (c.mergeChange msg).2 = (some ⟨c.peerID, msg.Entries⟩, msg.Entries.length) := by
  have hlen : ¬ msg.Entries.length = 0 := by simpa using hne
  have hloop := mergeLoop_all_new msg.Entries c [] 0 h
  unfold cache.mergeChange
  simp only [hlen, if_false]
  rw [Prod.ext_iff] at hloop
  simp only at hloop
  simp [hloop.1, hloop.2, deleteKeys, newMessageFromEntries]

/-- C6, the empty batch: merging a batch without entries yields no outgoing batch
at all (nil), so there is no batch to hold "exactly the entries of B". -/
theorem mergeChange_all_new_empty_batch_no_delta :
    (∀ p ∈ ([] : List (String × entry)), ∀ x,
      lru.find ([] : List (String × Iface)) p.2.Key = some x →
        ∃ r, x = Iface.ofValue r ∧ r.value ≠ p.2.Val) ∧
    ¬ ∃ m, (cache.mergeChange ⟨0, ⟨2, []⟩⟩ ⟨7, []⟩).2.1 = some m ∧ m.Entries = [] := by
  refine ⟨by simp, ?_⟩
  rintro ⟨m, hm, _⟩
  revert hm
  simp [cache.mergeChange]

/-- C6 as amended: for a batch with at least one entry and a store in which every
key of the batch is absent or holds a record whose value differs from the
batch's value for it, `mergeChange` yields `changedKey` equal to the number of
entries and a delta holding exactly the batch's entries; merging that delta
into an empty store again yields a count equal to the number of entries. -/
theorem mergeChange_all_new_batch (c : cache) (msg : message) (hne : msg.Entries ≠ [])
    (hnew : ∀ p ∈ msg.Entries, ∀ x, lru.find c.cc.items p.2.Key = some x →
      ∃ r, x = Iface.ofValue r ∧ r.value ≠ p.2.Val) :
    ∃ out, (c.mergeChange msg).2 = (some out, msg.Entries.length) ∧
      out.Entries = msg.Entries ∧
      ∀ (peer : Nat) (size : Int),
        (cache.mergeChange ⟨peer, ⟨size, []⟩⟩ out).2.2 = msg.Entries.length := by
  refine ⟨⟨c.peerID, msg.Entries⟩, ?_, rfl, ?_⟩
  · apply mergeChange_all_new c msg hne
    intro p hp hfind
    obtain ⟨r, hr, _⟩ := hnew p hp _ hfind
    cases hr
  · intro peer size
    have := mergeChange_all_new ⟨peer, ⟨size, []⟩⟩ ⟨c.peerID, msg.Entries⟩ hne
      (fun p _ => by simp [lru.find])
    rw [this]

theorem mergeChange_all_new_batch_witness :
    ∃ out, (cache.mergeChange ⟨0, ⟨2, [("x", Iface.ofValue ⟨"1", 0⟩)]⟩⟩
        ⟨7, [("x", ⟨"x", "2", 0⟩), ("y", ⟨"y", "3", 9⟩)]⟩).2 = (some out, 2) ∧
      out.Entries = [("x", ⟨"x", "2", 0⟩), ("y", ⟨"y", "3", 9⟩)] ∧
      ∀ (peer : Nat) (size : Int), (cache.mergeChange ⟨peer, ⟨size, []⟩⟩ out).2.2 = 2 :=
  mergeChange_all_new_batch ⟨0, ⟨2, [("x", Iface.ofValue ⟨"1", 0⟩)]⟩⟩
    ⟨7, [("x", ⟨"x", "2", 0⟩), ("y", ⟨"y", "3", 9⟩)]⟩ (by decide)
    (by
      intro p hp x hx
      simp only [List.mem_cons, List.mem_singleton, List.not_mem_nil, or_false] at hp
      rcases hp with rfl | rfl
      · refine ⟨⟨"1", 0⟩, ?_, by decide⟩
        simpa [lru.find] using hx.symm
      · simp [lru.find] at hx)

/-! ## Overwrite: the keys of the round stay at the front of the recency list -/

theorem find_append_of_some {A : List (String × Iface)} {key : String} {v : Iface}
    (h : lru.find A key = some v) (B : List (String × Iface)) :
    lru.find (A ++ B) key = some v := by
  induction A with
  | nil => simp [lru.find] at h
  | cons p rest ih =>
    obtain ⟨k, x⟩ := p
    by_cases hk : k = key
    · simpa [lru.find, hk] using h
    · simp only [lru.find, hk, if_false, List.cons_append] at h ⊢
      exact ih h

theorem find_of_keys_ne {A : List (String × Iface)} {key : String}
    (h : ∀ q ∈ A, q.1 ≠ key) : lru.find A key = none := by
  induction A with
  | nil => rfl
  | cons p rest ih =>
    obtain ⟨k, x⟩ := p
    have hk : k ≠ key := h (k, x) (List.mem_cons_self _ _)
    simp only [lru.find, hk, if_false]
    exact ih (fun q hq => h q (List.mem_cons_of_mem _ hq))

theorem find_append_of_none {A : List (String × Iface)} {key : String}
    (h : lru.find A key = none) (B : List (String × Iface)) :
    lru.find (A ++ B) key = lru.find B key := by
  induction A with
  | nil => rfl
  | cons p rest ih =>
    obtain ⟨k, x⟩ := p
    by_cases hk : k = key
    · simp [lru.find, hk] at h
    · simp only [lru.find, hk, if_false, List.cons_append] at h ⊢
      exact ih h

theorem erase_of_keys_ne {A : List (String × Iface)} {key : String}
    (h : ∀ q ∈ A, q.1 ≠ key) : lru.erase A key = A := by
  unfold lru.erase
  rw [List.filter_eq_self]
  intro q hq
  simpa using h q hq

theorem erase_append (A B : List (String × Iface)) (key : String) :
    lru.erase (A ++ B) key = lru.erase A key ++ lru.erase B key := by
  simp [lru.erase]

/-- A hit of `Get` moves the item in front of a prefix that does not hold the key. -/
theorem lruGet_shape (c : lru.Cache) (key : String) (x : Iface) (F R : List (String × Iface))
    (hitems : c.items = F ++ R) (hF : ∀ q ∈ F, q.1 ≠ key)
    (hfind : lru.find c.items key = some x) :
    (c.Get key).1.items = (key, x) :: F ++ lru.erase R key := by
  unfold lru.Cache.Get
  simp only [hfind]
  rw [hitems, erase_append, erase_of_keys_ne hF]
  rfl

/-- One round `Get` then `Set` puts the written record in front of a prefix that
does not hold the key, as long as the prefix leaves room for one more item. -/
theorem Get_Set_shape (c : cache) (key val : String) (e : Int) (F R : List (String × Iface))
    (hitems : c.cc.items = F ++ R) (hF : ∀ q ∈ F, q.1 ≠ key)
    (hroom : (F.length : Int) + 1 ≤ c.cc.size) :
    ∃ R1, (cache.Set { c with cc := (c.cc.Get key).1 } key val e).cc.items =
      (key, Iface.ofValue ⟨val, e⟩) :: F ++ R1 := by
  simp only [cache.Set]
  cases hfind : lru.find c.cc.items key with
  | some x =>
    refine ⟨lru.erase R key, ?_⟩
    have hshape := lruGet_shape c.cc key x F R hitems hF hfind
    unfold lru.Cache.Add
    rw [hshape]
    simp only [List.cons_append, find_cons_self, erase_cons_self]
    rw [erase_append, erase_of_keys_ne hF, erase_erase_self]
  | none =>
    have hget : (c.cc.Get key).1 = c.cc := by
      unfold lru.Cache.Get
      simp [hfind]
    rw [hget]
    unfold lru.Cache.Add
    simp only [hfind]
    split
    · rename_i hlen
      have hR : R ≠ [] := by
        intro hR
        simp only [hitems, hR, List.append_nil, List.length_cons] at hlen
        omega
      refine ⟨R.dropLast, ?_⟩
      simp only [hitems]
      rw [← List.cons_append, List.dropLast_append_of_ne_nil _ hR]
    · exact ⟨R, by simp [hitems]⟩

/-- The loop invariant behind the overwrite: the items touched in this call form a
prefix of the recency list, in front of the prefix `F` that was there before,
and every entry that was not classified as existing is found in it. -/
theorem mergeLoop_front (es : List (String × entry)) :
    ∀ (c : cache) (existingKeys : List String) (changedKey : Nat)
      (F R : List (String × Iface)),
      c.cc.items = F ++ R →
      (∀ p ∈ es, ∀ q ∈ F, q.1 ≠ p.2.Key) →
      (es.map (fun p => p.2.Key)).Nodup →
      (F.length : Int) + es.length ≤ c.cc.size →
      ∃ F1 R1, (mergeLoop es c existingKeys changedKey).1.cc.items = F1 ++ (F ++ R1) ∧
        (∀ q ∈ F1, ∃ p ∈ es, q.1 = p.2.Key) ∧
        ∀ p ∈ es, lru.find c.cc.items p.2.Key ≠ some (Iface.ofString p.2.Val) →
          lru.find F1 p.2.Key = some (Iface.ofValue ⟨p.2.Val, p.2.Expired⟩) := by
  induction es with
  | nil =>
    intro c ex n F R hitems _ _ _
    exact ⟨[], R, by simpa [mergeLoop] using hitems, by simp, by simp⟩
  | cons hd rest ih =>
    obtain ⟨mk, e⟩ := hd
    intro c ex n F R hitems hF hnodup hroom
    have hnd := List.nodup_cons.mp hnodup
    have hrest_ne : ∀ p ∈ rest, p.2.Key ≠ e.Key := by
      intro p hp heq
      have hmem : p.2.Key ∈ rest.map (fun p => p.2.Key) :=
        List.mem_map_of_mem (fun p => p.2.Key) hp
      rw [heq] at hmem
      exact hnd.1 hmem
    have hFk : ∀ q ∈ F, q.1 ≠ e.Key := hF (mk, e) (List.mem_cons_self _ _)
    simp only [List.length_cons, Nat.cast_add, Nat.cast_one] at hroom
    rw [mergeLoop_cons]
    by_cases hstr : lru.find c.cc.items e.Key = some (Iface.ofString e.Val)
    · rw [if_pos hstr]
      have hshape := lruGet_shape c.cc e.Key _ F R hitems hFk hstr
      obtain ⟨F1, R1, hfinal, hkeys, hfinds⟩ :=
        ih { c with cc := (c.cc.Get e.Key).1 } (ex ++ [e.Key]) n
          ((e.Key, Iface.ofString e.Val) :: F) (lru.erase R e.Key)
          (by simpa using hshape)
          (by
            intro p hp q hq
            rcases List.mem_cons.mp hq with h1 | h1
            · rw [h1]; exact (hrest_ne p hp).symm
            · exact hF p (List.mem_cons_of_mem _ hp) q h1)
          hnd.2
          (by simp only [List.length_cons, Nat.cast_add, Nat.cast_one, lruGet_size]; omega)
      refine ⟨F1 ++ [(e.Key, Iface.ofString e.Val)], R1, by simpa using hfinal, ?_, ?_⟩
      · intro q hq
        rcases List.mem_append.mp hq with h1 | h1
        · obtain ⟨p, hp, hpq⟩ := hkeys q h1
          exact ⟨p, List.mem_cons_of_mem _ hp, hpq⟩
        · rw [List.mem_singleton.mp h1]
          exact ⟨(mk, e), List.mem_cons_self _ _, rfl⟩
      · intro p hp hcond
        rcases List.mem_cons.mp hp with h1 | h1
        · rw [h1] at hcond
          exact absurd hstr hcond
        · exact find_append_of_some
            (hfinds p h1 (by simpa only [lruGet_find] using hcond)) _
    · rw [if_neg hstr]
      obtain ⟨R0, hshape⟩ := Get_Set_shape c e.Key e.Val e.Expired F R hitems hFk (by omega)
      have hsize : (cache.Set { c with cc := (c.cc.Get e.Key).1 } e.Key e.Val e.Expired).cc.size
          = c.cc.size := by
        simp [cache.Set, lruAdd_size, lruGet_size]
      obtain ⟨F1, R1, hfinal, hkeys, hfinds⟩ :=
        ih (cache.Set { c with cc := (c.cc.Get e.Key).1 } e.Key e.Val e.Expired) ex (n + 1)
          ((e.Key, Iface.ofValue ⟨e.Val, e.Expired⟩) :: F) R0
          (by simpa using hshape)
          (by
            intro p hp q hq
            rcases List.mem_cons.mp hq with h1 | h1
            · rw [h1]; exact (hrest_ne p hp).symm
            · exact hF p (List.mem_cons_of_mem _ hp) q h1)
          hnd.2
          (by rw [hsize]; simp only [List.length_cons, Nat.cast_add, Nat.cast_one]; omega)
      refine ⟨F1 ++ [(e.Key, Iface.ofValue ⟨e.Val, e.Expired⟩)], R1, by simpa using hfinal,
        ?_, ?_⟩
      · intro q hq
        rcases List.mem_append.mp hq with h1 | h1
        · obtain ⟨p, hp, hpq⟩ := hkeys q h1
          exact ⟨p, List.mem_cons_of_mem _ hp, hpq⟩
        · rw [List.mem_singleton.mp h1]
          exact ⟨(mk, e), List.mem_cons_self _ _, rfl⟩
      · intro p hp hcond
        rcases List.mem_cons.mp hp with h1 | h1
        · rw [h1]
          have hnone : lru.find F1 e.Key = none := by
            apply find_of_keys_ne
            intro q hq
            obtain ⟨p1, hp1, hpq⟩ := hkeys q hq
            rw [hpq]
            exact hrest_ne p1 hp1
          rw [find_append_of_none hnone]
          simp [lru.find]
        · exact find_append_of_some
            (hfinds p h1 (find_Get_Set_ne_string c e.Key e.Val e.Expired _ _ hcond)) _

/-- C5 (last-arrival-wins overwrite): on a store of capacity `c.cc.size`, for a batch
with at most that many entries and pairwise different entry keys, every
incoming entry whose key was absent or held a record with a different value
is, after `mergeChange`, stored under its key with exactly the incoming value
and the incoming expiry, whatever expiry the replaced record had. -/
theorem mergeChange_overwrites (c : cache) (msg : message)
    (hcap : (msg.Entries.length : Int) ≤ c.cc.size)
    (hkeys : (msg.Entries.map (fun p => p.2.Key)).Nodup)
    (p : String × entry) (hp : p ∈ msg.Entries)
    (hdiff : lru.find c.cc.items p.2.Key = none ∨
      ∃ r, lru.find c.cc.items p.2.Key = some (Iface.ofValue r) ∧ r.value ≠ p.2.Val) :
    lru.find (c.mergeChange msg).1.cc.items p.2.Key =
      some (Iface.ofValue ⟨p.2.Val, p.2.Expired⟩) := by
  have hne : ¬ msg.Entries.length = 0 := by
    intro h0
    rw [List.length_eq_zero] at h0
    rw [h0] at hp
    cases hp
  have hcond : lru.find c.cc.items p.2.Key ≠ some (Iface.ofString p.2.Val) := by
    rcases hdiff with h | ⟨r, h, _⟩ <;> rw [h] <;> simp
  obtain ⟨F1, R1, hfinal, _, hfinds⟩ :=
    mergeLoop_front msg.Entries c [] 0 [] c.cc.items rfl (by simp) hkeys (by simpa using hcap)
  have hstore : (c.mergeChange msg).1 = (mergeLoop msg.Entries c [] 0).1 := by
    unfold cache.mergeChange
    simp only [hne, if_false]
  rw [hstore, hfinal]
  exact find_append_of_some (hfinds p hp hcond) _

theorem mergeChange_overwrites_witness :
    lru.find (cache.mergeChange
        ⟨0, ⟨2, [("x", Iface.ofValue ⟨"1", 100⟩), ("z", Iface.ofValue ⟨"9", 0⟩)]⟩⟩
        ⟨7, [("x", ⟨"x", "2", 5⟩), ("y", ⟨"y", "3", 9⟩)]⟩).1.cc.items "x" =
      some (Iface.ofValue ⟨"2", 5⟩) :=
  mergeChange_overwrites
    ⟨0, ⟨2, [("x", Iface.ofValue ⟨"1", 100⟩), ("z", Iface.ofValue ⟨"9", 0⟩)]⟩⟩
    ⟨7, [("x", ⟨"x", "2", 5⟩), ("y", ⟨"y", "3", 9⟩)]⟩ (by decide) (by decide)
    ("x", ⟨"x", "2", 5⟩) (by decide)
    (Or.inr ⟨⟨"1", 100⟩, by decide, by decide⟩)

/-! ## The empty batch, construction, and the expiry of an equal value -/

/-- C11, the returned delta: for a batch without entries `mergeChange` returns nil,
not an outgoing batch with no entries. -/
theorem mergeChange_empty_batch_delta_is_nil :
    (cache.mergeChange ⟨0, ⟨2, [("a", Iface.ofValue ⟨"x", 0⟩)]⟩⟩ ⟨7, []⟩).2.1 = none ∧
    ¬ ∃ m, (cache.mergeChange ⟨0, ⟨2, [("a", Iface.ofValue ⟨"x", 0⟩)]⟩⟩ ⟨7, []⟩).2.1 = some m := by
  refine ⟨by decide, ?_⟩
  rintro ⟨m, hm⟩
  revert hm
  simp [cache.mergeChange]

/-- C11 as amended: for every store, `mergeChange` on a batch without entries returns
nil and `changedKey = 0`, and the store it leaves is the store it was given,
contents and recency order included. -/
theorem mergeChange_empty_batch (c : cache) (peer : Nat) :
    c.mergeChange ⟨peer, []⟩ = (c, none, 0) := by
  simp [cache.mergeChange]

/-- C12 (construction): `newCache maxKeys` fails with an error, and returns no store,
exactly when `maxKeys ≤ 0`; it returns the empty store of capacity `maxKeys`
exactly when `maxKeys > 0`. -/
theorem newCache_fails_iff_not_positive (maxKeys : Int) :
    ((∃ err, newCache maxKeys = .error err) ↔ maxKeys ≤ 0) ∧
    (newCache maxKeys = .ok ⟨0, ⟨maxKeys, []⟩⟩ ↔ 0 < maxKeys) := by
  by_cases h : maxKeys ≤ 0
  · have h2 : ¬ 0 < maxKeys := by omega
    simp [newCache, lru.New, h, h2]
  · have h2 : 0 < maxKeys := by omega
    simp [newCache, lru.New, h, h2]

/-- C14, evaluated: the store of capacity 3 after `Set("k", "v", 100)` holds `k` with
value `v` and expiry 100; after merging `{k: (v, 7)}` it holds `k` with expiry 7:
the incoming expiry has been applied. -/
theorem mergeChange_equal_value_applies_expiry :
    lru.find (cache.Set ⟨0, ⟨3, []⟩⟩ "k" "v" 100).cc.items "k" =
      some (Iface.ofValue ⟨"v", 100⟩) ∧
    lru.find (cache.mergeChange (cache.Set ⟨0, ⟨3, []⟩⟩ "k" "v" 100)
      ⟨7, [("k", ⟨"k", "v", 7⟩)]⟩).1.cc.items "k" = some (Iface.ofValue ⟨"v", 7⟩) :=
  ⟨by decide, by decide⟩

/-! ## Eviction on insert -/

/-- C13 (eviction on insert): on a store of positive capacity, `Set` of a key that is
not stored, when the store holds exactly `size` entries, removes exactly the
last item of the recency list (the least recently used one) and keeps all
others in order behind the new item; when the store holds fewer entries it
only adds the new item; and `Set` of a key that is stored replaces that key's
item and leaves every other key as it was. -/
theorem Set_evicts_only_when_full_and_new (c : cache) (key v : String) (e : Int)
    (hpos : 0 < c.cc.size) :
    (lru.find c.cc.items key = none → (c.cc.items.length : Int) = c.cc.size →
      ∃ front last, c.cc.items = front ++ [last] ∧
        (c.Set key v e).cc.items = (key, Iface.ofValue ⟨v, e⟩) :: front) ∧
    (lru.find c.cc.items key = none → (c.cc.items.length : Int) < c.cc.size →
      (c.Set key v e).cc.items = (key, Iface.ofValue ⟨v, e⟩) :: c.cc.items) ∧
    (∀ x, lru.find c.cc.items key = some x →
      (c.Set key v e).cc.items = (key, Iface.ofValue ⟨v, e⟩) :: lru.erase c.cc.items key ∧
      ∀ other, other ≠ key →
        lru.find (c.Set key v e).cc.items other = lru.find c.cc.items other) := by
  refine ⟨?_, ?_, ?_⟩
  · intro hfind hfull
    have hne : c.cc.items ≠ [] := by
      intro h0
      rw [h0] at hfull
      simp only [List.length_nil, Nat.cast_zero] at hfull
      omega
    refine ⟨c.cc.items.dropLast, c.cc.items.getLast hne,
      (List.dropLast_append_getLast hne).symm, ?_⟩
    have hgt : ((c.cc.items.length : Int) + 1 > c.cc.size) := by omega
    obtain ⟨p, rest, hitems⟩ := List.exists_cons_of_ne_nil hne
    simp only [cache.Set, lru.Cache.Add, hfind, List.length_cons, Nat.cast_add, Nat.cast_one,
      hgt, if_true]
    rw [hitems]
    rfl
  · intro hfind hlt
    have hgt : ¬ ((c.cc.items.length : Int) + 1 > c.cc.size) := by omega
    simp only [cache.Set, lru.Cache.Add, hfind, List.length_cons, Nat.cast_add, Nat.cast_one,
      hgt, if_false]
  · intro x hfind
    have hitems : (c.Set key v e).cc.items =
        (key, Iface.ofValue ⟨v, e⟩) :: lru.erase c.cc.items key := by
      simp only [cache.Set, lru.Cache.Add, hfind]
    refine ⟨hitems, fun other hne => ?_⟩
    rw [hitems, find_cons_of_ne _ _ (Ne.symm hne), find_erase_of_ne _ hne]

theorem Set_evicts_only_when_full_and_new_witness :
    (∃ front last, [("a", Iface.ofValue ⟨"x", 0⟩), ("b", Iface.ofValue ⟨"y", 0⟩)]
        = front ++ [last] ∧
      (cache.Set ⟨0, ⟨2, [("a", Iface.ofValue ⟨"x", 0⟩), ("b", Iface.ofValue ⟨"y", 0⟩)]⟩⟩
        "k" "v" 5).cc.items = ("k", Iface.ofValue ⟨"v", 5⟩) :: front) :=
  (Set_evicts_only_when_full_and_new
    ⟨0, ⟨2, [("a", Iface.ofValue ⟨"x", 0⟩), ("b", Iface.ofValue ⟨"y", 0⟩)]⟩⟩ "k" "v" 5
    (by decide)).1 (by decide) (by decide)

/-! ## Stores the program can build -/

theorem newCache_inv {maxKeys : Int} {c0 : cache} (hnew : newCache maxKeys = .ok c0) :
    Inv maxKeys c0 := by
  by_cases h : maxKeys ≤ 0
  · simp [newCache, lru.New, h] at hnew
  · have hpos : 0 < maxKeys := by omega
    obtain ⟨hok, hinv⟩ := newCache_ok hpos
    rw [hok] at hnew
    cases hnew
    exact hinv

theorem find_ne_string_of_AllValues {c : cache} (hall : AllValues c) (key s : String) :
    lru.find c.cc.items key ≠ some (Iface.ofString s) := by
  intro hfind
  obtain ⟨r, hr⟩ := hall _ (find_mem hfind)
  cases hr

/-- C15 (totality): in every store reached from `newCache` by a sequence of `Set`,
`Get`, `mergeDelta` and `mergeNew` calls (the sequence itself runs to the end),
every stored item is a `value` record, the type assertion of `get` succeeds
for every key, `Get` returns for every key and time, and every further call,
merges of any batch included, returns. -/
theorem reachable_store_total (maxKeys : Int) (c0 : cache)
    (hnew : newCache maxKeys = .ok c0) (ops : List Op) :
    ∃ c1, run c0 ops = some c1 ∧ AllValues c1 ∧
      (∀ key, ∃ r, c1.get key = some r) ∧
      (∀ key now, ∃ r, c1.Get key now = some r) ∧
      (∀ op, ∃ c2, step c1 op = some c2) := by
  obtain ⟨c1, hrun, hinv⟩ := run_total ops c0 (newCache_inv hnew)
  refine ⟨c1, hrun, hinv.2.2, ?_, ?_, ?_⟩
  · intro key
    obtain ⟨v, t, ok, hget⟩ := get_total hinv key
    exact ⟨_, hget⟩
  · intro key now
    obtain ⟨c2, v, ok, hget, _⟩ := Get_total hinv key now
    exact ⟨_, hget⟩
  · intro op
    obtain ⟨c2, hstep, _⟩ := step_total hinv op
    exact ⟨c2, hstep⟩

theorem reachable_store_total_witness :
    ∃ c1, run ⟨0, ⟨2, []⟩⟩ [Op.set "a" "x" 3, Op.mergeNew ⟨7, [("a", ⟨"a", "x", 0⟩)]⟩,
        Op.get "a" 9, Op.mergeDelta ⟨7, [("b", ⟨"b", "y", 1⟩), ("c", ⟨"c", "z", 0⟩)]⟩]
        = some c1 ∧ AllValues c1 ∧
      (∀ key, ∃ r, c1.get key = some r) ∧
      (∀ key now, ∃ r, c1.Get key now = some r) ∧
      (∀ op, ∃ c2, step c1 op = some c2) :=
  reachable_store_total 2 ⟨0, ⟨2, []⟩⟩ rfl _

/-- When no entry's key holds the entry's value string, the store the loop leaves is
the store after `Get` and `Set` of every entry, in iteration order. -/
theorem mergeLoop_all_new_store (es : List (String × entry)) :
    ∀ (c : cache) (existingKeys : List String) (changedKey : Nat),
      (∀ p ∈ es, lru.find c.cc.items p.2.Key ≠ some (Iface.ofString p.2.Val)) →
      (mergeLoop es c existingKeys changedKey).1 =
        es.foldl (fun c1 p =>
          cache.Set { c1 with cc := (c1.cc.Get p.2.Key).1 } p.2.Key p.2.Val p.2.Expired) c := by
  induction es with
  | nil => intro c ex n _; rfl
  | cons p rest ih =>
    obtain ⟨mk, e⟩ := p
    intro c ex n h
    rw [mergeLoop_cons, if_neg (h (mk, e) (List.mem_cons_self _ _))]
    rw [ih _ _ _ (fun q hq => find_Get_Set_ne_string c e.Key e.Val e.Expired _ _
      (h q (List.mem_cons_of_mem _ hq)))]
    rfl

/-- C16 (the comparison never matches): in every store reached from `newCache` by
`Set`, `Get` and merge calls, the raw lookup never yields an item equal to a
string; hence for every batch the loop classifies no key as existing, writes
every entry with `Set`, `changedKey` is the number of entries, and the delta of
a batch with entries holds exactly the incoming entries. -/
theorem reachable_merge_never_matches (maxKeys : Int) (c0 c1 : cache)
    (hnew : newCache maxKeys = .ok c0) (ops : List Op) (hrun : run c0 ops = some c1)
    (msg : message) :
    (∀ key s, (c1.cc.Get key).2 ≠ some (Iface.ofString s)) ∧
    mergeLoop msg.Entries c1 [] 0 =
      (msg.Entries.foldl (fun c2 p =>
          cache.Set { c2 with cc := (c2.cc.Get p.2.Key).1 } p.2.Key p.2.Val p.2.Expired) c1,
        [], msg.Entries.length) ∧
    (c1.mergeChange msg).2.2 = msg.Entries.length ∧
    (c1.mergeChange msg).2.1 =
      if msg.Entries = [] then none else some ⟨c1.peerID, msg.Entries⟩ := by
  obtain ⟨c1', hrun', hinv⟩ := run_total ops c0 (newCache_inv hnew)
  rw [hrun] at hrun'
  cases hrun'
  have hcond : ∀ p ∈ msg.Entries,
      lru.find c1.cc.items p.2.Key ≠ some (Iface.ofString p.2.Val) :=
    fun p _ => find_ne_string_of_AllValues hinv.2.2 _ _
  have hloop2 := mergeLoop_all_new msg.Entries c1 [] 0 hcond
  have hloop1 := mergeLoop_all_new_store msg.Entries c1 [] 0 hcond
  refine ⟨?_, ?_, ?_, ?_⟩
  · intro key s
    rw [lruGet_snd]
    exact find_ne_string_of_AllValues hinv.2.2 key s
  · rw [Prod.ext_iff]
    exact ⟨hloop1, by simpa using hloop2⟩
  · by_cases hne : msg.Entries = []
    · simp [cache.mergeChange, hne]
    · rw [mergeChange_all_new c1 msg hne hcond]
  · by_cases hne : msg.Entries = []
    · simp [cache.mergeChange, hne]
    · rw [mergeChange_all_new c1 msg hne hcond]
      simp [hne]

theorem reachable_merge_never_matches_witness :
    (∀ key s, (lru.Cache.Get ⟨2, [("k", Iface.ofValue ⟨"v", 0⟩)]⟩ key).2
      ≠ some (Iface.ofString s)) ∧
    mergeLoop [("k", ⟨"k", "v", 5⟩)] ⟨0, ⟨2, [("k", Iface.ofValue ⟨"v", 0⟩)]⟩⟩ [] 0 =
      ([("k", (⟨"k", "v", 5⟩ : entry))].foldl (fun c2 p =>
          cache.Set { c2 with cc := (c2.cc.Get p.2.Key).1 } p.2.Key p.2.Val p.2.Expired)
          ⟨0, ⟨2, [("k", Iface.ofValue ⟨"v", 0⟩)]⟩⟩,
        [], [("k", (⟨"k", "v", 5⟩ : entry))].length) ∧
    (cache.mergeChange ⟨0, ⟨2, [("k", Iface.ofValue ⟨"v", 0⟩)]⟩⟩
      ⟨7, [("k", ⟨"k", "v", 5⟩)]⟩).2.2 = [("k", (⟨"k", "v", 5⟩ : entry))].length ∧
    (cache.mergeChange ⟨0, ⟨2, [("k", Iface.ofValue ⟨"v", 0⟩)]⟩⟩
      ⟨7, [("k", ⟨"k", "v", 5⟩)]⟩).2.1 =
      if [("k", (⟨"k", "v", 5⟩ : entry))] = [] then none
      else some ⟨0, [("k", ⟨"k", "v", 5⟩)]⟩ :=
  reachable_merge_never_matches 2 ⟨0, ⟨2, []⟩⟩ ⟨0, ⟨2, [("k", Iface.ofValue ⟨"v", 0⟩)]⟩⟩
    rfl [Op.set "k" "v" 0] (by decide) ⟨7, [("k", ⟨"k", "v", 5⟩)]⟩

/-! ## Counting: changed keys, existing keys and the delta -/

/-- Every entry of the loop is either counted or appended to `existingKeys`. -/
theorem mergeLoop_count (es : List (String × entry)) :
    ∀ (c : cache) (existingKeys : List String) (changedKey : Nat),
      (mergeLoop es c existingKeys changedKey).2.2 +
          (mergeLoop es c existingKeys changedKey).2.1.length =
        changedKey + existingKeys.length + es.length := by
  induction es with
  | nil => intro c ex n; simp [mergeLoop]
  | cons p rest ih =>
    obtain ⟨mk, e⟩ := p
    intro c ex n
    rw [mergeLoop_cons]
    split
    · rw [ih]
      simp only [List.length_append, List.length_cons, List.length_nil]
      omega
    · rw [ih]
      simp only [List.length_cons]
      omega

/-- The keys the loop appends to `existingKeys` are entry keys, in iteration order. -/
theorem mergeLoop_existing_sublist (es : List (String × entry)) :
    ∀ (c : cache) (existingKeys : List String) (changedKey : Nat),
      ∃ ks, (mergeLoop es c existingKeys changedKey).2.1 = existingKeys ++ ks ∧
        ks.Sublist (es.map (fun p => p.2.Key)) := by
  induction es with
  | nil => intro c ex n; exact ⟨[], by simp [mergeLoop], by simp⟩
  | cons p rest ih =>
    obtain ⟨mk, e⟩ := p
    intro c ex n
    rw [mergeLoop_cons]
    split
    · obtain ⟨ks, hks, hsub⟩ := ih { c with cc := (c.cc.Get e.Key).1 } (ex ++ [e.Key]) n
      refine ⟨e.Key :: ks, ?_, ?_⟩
      · rw [hks]; simp
      · simpa using hsub
    · obtain ⟨ks, hks, hsub⟩ :=
        ih (cache.Set { c with cc := (c.cc.Get e.Key).1 } e.Key e.Val e.Expired) ex (n + 1)
      exact ⟨ks, hks, by simpa using hsub.cons e.Key⟩

theorem deleteKeys_eq_filter (keys : List String) :
    ∀ es : List (String × entry),
      deleteKeys es keys = es.filter (fun p => decide (p.1 ∉ keys)) := by
  induction keys with
  | nil => intro es; simp [deleteKeys]
  | cons k rest ih =>
    intro es
    have hstep : deleteKeys es (k :: rest) = deleteKeys (mapDelete es k) rest := rfl
    rw [hstep, ih, mapDelete, List.filter_filter]
    apply List.filter_congr
    intro p _
    by_cases h1 : p.1 = k <;> by_cases h2 : p.1 ∈ rest <;> simp [h1, h2]

theorem mem_deleteKeys {es : List (String × entry)} {keys : List String} {q : String × entry}
    (h : q ∈ deleteKeys es keys) : q ∈ es := by
  rw [deleteKeys_eq_filter] at h
  exact (List.mem_filter.mp h).1

/-- Deleting a duplicate-free selection of the map keys removes one entry per key. -/
theorem filter_not_mem_length (es : List (String × entry)) :
    ∀ keys : List String, keys.Sublist (es.map Prod.fst) → (es.map Prod.fst).Nodup →
      (es.filter (fun p => decide (p.1 ∉ keys))).length + keys.length = es.length := by
  induction es with
  | nil =>
    intro keys hsub _
    have : keys = [] := by simpa using hsub
    simp [this]
  | cons p rest ih =>
    intro keys hsub hnd
    simp only [List.map_cons, List.nodup_cons] at hnd
    simp only [List.map_cons] at hsub
    cases hsub with
    | cons _ hsub1 =>
      have hp : p.1 ∉ keys := fun hmem => hnd.1 (hsub1.subset hmem)
      have := ih keys hsub1 hnd.2
      simp only [List.filter_cons, hp, not_false_eq_true, decide_True, if_true,
        List.length_cons]
      omega
    | cons₂ _ hsub1 =>
      rename_i ks
      have := ih ks hsub1 hnd.2
      have hfilter : rest.filter (fun q => decide (q.1 ∉ p.1 :: ks)) =
          rest.filter (fun q => decide (q.1 ∉ ks)) := by
        apply List.filter_congr
        intro q hq
        have hqp : q.1 ≠ p.1 := by
          intro heq
          exact hnd.1 (heq ▸ List.mem_map_of_mem Prod.fst hq)
        simp [hqp]
      have hhead : decide (p.1 ∉ p.1 :: ks) = false := by simp
      rw [List.filter_cons, hhead]
      simp only [Bool.false_eq_true, if_false]
      rw [hfilter]
      simp only [List.length_cons]
      omega

/-- C17 (counts): for a batch with at least one entry, on a store that holds only
`value` records (as every store built by the program does) or with a batch
whose map keys are the keys of its entries, `mergeChange` returns a delta whose
number of entries is `changedKey`; `changedKey` plus the number of keys
classified as existing is the number of incoming entries; and every entry of
the delta is an incoming entry, unchanged. -/
theorem mergeChange_counts (c : cache) (msg : message) (hne : msg.Entries ≠ [])
    (h : AllValues c ∨
      ((∀ p ∈ msg.Entries, p.1 = p.2.Key) ∧ (msg.Entries.map Prod.fst).Nodup)) :
    ∃ out, (c.mergeChange msg).2.1 = some out ∧
      (c.mergeChange msg).2.2 = out.Entries.length ∧
      (c.mergeChange msg).2.2 + (mergeLoop msg.Entries c [] 0).2.1.length =
        msg.Entries.length ∧
      ∀ q ∈ out.Entries, q ∈ msg.Entries := by
  have hlen : ¬ msg.Entries.length = 0 := by simpa using hne
  have hcount := mergeLoop_count msg.Entries c [] 0
  simp only [List.length_nil, Nat.zero_add] at hcount
  have hmc : c.mergeChange msg =
      ((mergeLoop msg.Entries c [] 0).1,
        some (newMessageFromEntries c.peerID
          (deleteKeys msg.Entries (mergeLoop msg.Entries c [] 0).2.1)),
        (mergeLoop msg.Entries c [] 0).2.2) := by
    unfold cache.mergeChange
    simp only [hlen, if_false]
  rw [hmc]
  refine ⟨_, rfl, ?_, hcount, fun q hq => mem_deleteKeys hq⟩
  simp only [newMessageFromEntries]
  rcases h with hall | ⟨hkey, hnd⟩
  · have hloop := mergeLoop_all_new msg.Entries c [] 0
      (fun p _ => find_ne_string_of_AllValues hall _ _)
    rw [hloop]
    simp [deleteKeys]
  · obtain ⟨ks, hks, hsub⟩ := mergeLoop_existing_sublist msg.Entries c [] 0
    have hmap : msg.Entries.map (fun p => p.2.Key) = msg.Entries.map Prod.fst :=
      List.map_congr_left (fun p hp => (hkey p hp).symm)
    rw [hmap] at hsub
    have hfl := filter_not_mem_length msg.Entries ks hsub hnd
    rw [hks] at hcount ⊢
    simp only [List.nil_append] at hcount ⊢
    rw [deleteKeys_eq_filter]
    omega

theorem mergeChange_counts_witness :
    ∃ out, (cache.mergeChange ⟨0, ⟨1, [("x", Iface.ofValue ⟨"1", 0⟩)]⟩⟩
        ⟨7, [("x", ⟨"x", "1", 4⟩), ("y", ⟨"y", "3", 9⟩)]⟩).2.1 = some out ∧
      (cache.mergeChange ⟨0, ⟨1, [("x", Iface.ofValue ⟨"1", 0⟩)]⟩⟩
        ⟨7, [("x", ⟨"x", "1", 4⟩), ("y", ⟨"y", "3", 9⟩)]⟩).2.2 = out.Entries.length ∧
      (cache.mergeChange ⟨0, ⟨1, [("x", Iface.ofValue ⟨"1", 0⟩)]⟩⟩
        ⟨7, [("x", ⟨"x", "1", 4⟩), ("y", ⟨"y", "3", 9⟩)]⟩).2.2 +
        (mergeLoop [("x", ⟨"x", "1", 4⟩), ("y", ⟨"y", "3", 9⟩)]
          ⟨0, ⟨1, [("x", Iface.ofValue ⟨"1", 0⟩)]⟩⟩ [] 0).2.1.length =
        [("x", (⟨"x", "1", 4⟩ : entry)), ("y", ⟨"y", "3", 9⟩)].length ∧
      ∀ q ∈ out.Entries, q ∈ [("x", (⟨"x", "1", 4⟩ : entry)), ("y", ⟨"y", "3", 9⟩)] :=
  mergeChange_counts ⟨0, ⟨1, [("x", Iface.ofValue ⟨"1", 0⟩)]⟩⟩
    ⟨7, [("x", ⟨"x", "1", 4⟩), ("y", ⟨"y", "3", 9⟩)]⟩ (by decide)
    (Or.inr ⟨by decide, by decide⟩)

/-! ## Iteration order -/

/-- C18 (order independence): on a store that holds only `value` records (as every
store built by the program does), two iteration orders of the same batch give
the same `changedKey` and deltas with the same stamp and the same entries
(nil both times for the batch without entries), whatever the inserts of the
round evict. -/
theorem mergeChange_order_independent (c : cache) (hall : AllValues c) (peer : Nat)
    (es es1 : List (String × entry)) (hperm : es.Perm es1) :
    (c.mergeChange ⟨peer, es⟩).2.2 = (c.mergeChange ⟨peer, es1⟩).2.2 ∧
    (((c.mergeChange ⟨peer, es⟩).2.1 = none ∧ (c.mergeChange ⟨peer, es1⟩).2.1 = none) ∨
      ∃ m m1, (c.mergeChange ⟨peer, es⟩).2.1 = some m ∧
        (c.mergeChange ⟨peer, es1⟩).2.1 = some m1 ∧
        m.PeerID = m1.PeerID ∧ m.Entries.Perm m1.Entries) := by
  by_cases hne : es = []
  · have hne1 : es1 = [] := by
      rw [hne] at hperm
      exact List.perm_nil.mp hperm.symm
    subst hne
    subst hne1
    simp [cache.mergeChange]
  · have hne1 : es1 ≠ [] := by
      intro h1
      rw [h1] at hperm
      exact hne (List.perm_nil.mp hperm)
    have h1 := mergeChange_all_new c ⟨peer, es⟩ hne
      (fun p _ => find_ne_string_of_AllValues hall _ _)
    have h2 := mergeChange_all_new c ⟨peer, es1⟩ hne1
      (fun p _ => find_ne_string_of_AllValues hall _ _)
    rw [h1, h2]
    exact ⟨hperm.length_eq, Or.inr ⟨_, _, rfl, rfl, rfl, hperm⟩⟩

theorem mergeChange_order_independent_witness :
    (cache.mergeChange ⟨0, ⟨1, [("z", Iface.ofValue ⟨"9", 0⟩)]⟩⟩
        ⟨7, [("z", ⟨"z", "9", 0⟩), ("a", ⟨"a", "1", 0⟩)]⟩).2.2 =
      (cache.mergeChange ⟨0, ⟨1, [("z", Iface.ofValue ⟨"9", 0⟩)]⟩⟩
        ⟨7, [("a", ⟨"a", "1", 0⟩), ("z", ⟨"z", "9", 0⟩)]⟩).2.2 ∧
    (((cache.mergeChange ⟨0, ⟨1, [("z", Iface.ofValue ⟨"9", 0⟩)]⟩⟩
          ⟨7, [("z", ⟨"z", "9", 0⟩), ("a", ⟨"a", "1", 0⟩)]⟩).2.1 = none ∧
        (cache.mergeChange ⟨0, ⟨1, [("z", Iface.ofValue ⟨"9", 0⟩)]⟩⟩
          ⟨7, [("a", ⟨"a", "1", 0⟩), ("z", ⟨"z", "9", 0⟩)]⟩).2.1 = none) ∨
      ∃ m m1, (cache.mergeChange ⟨0, ⟨1, [("z", Iface.ofValue ⟨"9", 0⟩)]⟩⟩
          ⟨7, [("z", ⟨"z", "9", 0⟩), ("a", ⟨"a", "1", 0⟩)]⟩).2.1 = some m ∧
        (cache.mergeChange ⟨0, ⟨1, [("z", Iface.ofValue ⟨"9", 0⟩)]⟩⟩
          ⟨7, [("a", ⟨"a", "1", 0⟩), ("z", ⟨"z", "9", 0⟩)]⟩).2.1 = some m1 ∧
        m.PeerID = m1.PeerID ∧ m.Entries.Perm m1.Entries) :=
  mergeChange_order_independent ⟨0, ⟨1, [("z", Iface.ofValue ⟨"9", 0⟩)]⟩⟩
    (by
      intro p hp
      simp only [List.mem_singleton] at hp
      exact ⟨⟨"9", 0⟩, by rw [hp]⟩)
    7 [("z", ⟨"z", "9", 0⟩), ("a", ⟨"a", "1", 0⟩)] [("a", ⟨"a", "1", 0⟩), ("z", ⟨"z", "9", 0⟩)]
    (List.Perm.swap _ _ _)

end bcache
